import Mathlib

/-!
Verification of the harmonic loss-estimation pipeline of the
Eletric-Machines repository (FEMM post-processing scripts for a PMSM).

The definitions below are shallow embeddings of the Python source:

* `Loss_Calculation_Toyota_Prius_2004_FEMM.py` — magnet current
  correction (lines 65–70), region masks (lines 106–108), and the
  power/torque/efficiency block (lines 129–135);
* `unnamed/part_000`, section `01 - PMSM_Torque_vs_Beta_FEMM.py` — the
  torque-vs-beta optimizer loop and the dq→abc transform;
* `unnamed/part_000`, section `03 - FFT_Bxy_Az_Toyota_Prius_2004_FEMM.py`
  — the DFT-based harmonic decomposition;
* `Compute_Bx-Az-Te_Toyota_Prius_2004_FEMM.py` — the field-sweep
  driver's dq→abc transform (lines 61–76).

Exact arithmetic (`ℚ`, `ℝ`, `ℂ`) replaces numpy floats.  For the two
claims about division-by-zero behaviour a separate model `FQ` tracks
IEEE non-finite values explicitly (see below).
-/

namespace ElectricMachines

/-! ### Region masks

`(g == tag).astype(float)` on the element region-tag vector `g`.
Used as `g1`/`g2`/`g3`/`g4` in the loss script (tags 4 = rotor iron,
5 = stator iron, 2 = coils, 11 = magnets). -/

/-- Embedding of `(g == tag).astype(float)` : the 0/1 mask selecting the
elements whose region tag equals `tag`. -/
def regionMask {nn : ℕ} (tag : ℤ) (g : Fin nn → ℤ) : Fin nn → ℚ :=
  fun m => if g m = tag then 1 else 0

theorem regionMask_zero_or_one {nn : ℕ} (tag : ℤ) (g : Fin nn → ℤ) (m : Fin nn) :
    regionMask tag g m = 0 ∨ regionMask tag g m = 1 := by
  unfold regionMask
  split_ifs <;> simp

/-! ### Magnet current correction (`Loss_Calculation…py`, lines 65–70)

```
Jm_vec = Jm.copy()
for i in range(N):
    g3 = (g == 11).astype(float)
    vmag = v @ g3
    Jo = np.dot(Jm_vec[i], v * g3) / vmag
    Jm_vec[i] -= np.outer(Jo, g3)
```

`Jm i` is the per-current-level spectrum, indexed by harmonic order `k`
and element `m`; `v` is the element volume vector.  The per-level loop
body is embedded as a function of the level's spectrum. -/

/-- Embedding of `vmag = v @ g3`. -/
def vmag {nn : ℕ} (v g3 : Fin nn → ℚ) : ℚ := ∑ m, v m * g3 m

/-- Embedding of one component of `Jo = np.dot(Jm_vec[i], v * g3) / vmag`:
the row of the spectrum at one harmonic order, dotted with `v * g3`,
divided by `vmag`. -/
def Jo {nn : ℕ} (row v g3 : Fin nn → ℚ) : ℚ :=
  (∑ m, row m * (v m * g3 m)) / vmag v g3

/-- Embedding of `Jm_vec[i] -= np.outer(Jo, g3)` applied to the copy of
one current level's spectrum: entry `(k, m)` becomes
`Jm k m - Jo k * g3 m` with `g3 = (g == 11)`. -/
def magnetCorrection {ns nn : ℕ} (Jm : Fin ns → Fin nn → ℚ)
    (v : Fin nn → ℚ) (g : Fin nn → ℤ) : Fin ns → Fin nn → ℚ :=
  fun k m => Jm k m - Jo (Jm k) v (regionMask 11 g) * regionMask 11 g m

/-- Embedding of lines 65–70 as a whole: `Jm_vec = Jm.copy()` followed by
the in-place subtraction mutates only the copy, so the step maps the
input spectrum to the pair (untouched original, corrected copy). -/
def magnetCorrectionRun {ns nn : ℕ} (Jm : Fin ns → Fin nn → ℚ)
    (v : Fin nn → ℚ) (g : Fin nn → ℤ) :
    (Fin ns → Fin nn → ℚ) × (Fin ns → Fin nn → ℚ) :=
  (Jm, magnetCorrection Jm v g)

/-- Area-weighted mean over the magnet region of one harmonic row of a
spectrum: `(row · (v * g3)) / (v · g3)`, the quantity the correction is
meant to null. -/
def magnetMean {nn : ℕ} (row v : Fin nn → ℚ) (g : Fin nn → ℤ) : ℚ :=
  (∑ m, row m * (v m * regionMask 11 g m)) / vmag v (regionMask 11 g)

theorem sum_row_eq_Jo_mul_vmag {nn : ℕ} (row v : Fin nn → ℚ) (g : Fin nn → ℤ)
    (h : vmag v (regionMask 11 g) ≠ 0) :
    ∑ m, row m * (v m * regionMask 11 g m)
      = Jo row v (regionMask 11 g) * vmag v (regionMask 11 g) := by
  unfold Jo
  rw [div_mul_cancel₀ _ h]

/-- Example tag vector for concrete witnesses: element 0 is a magnet
element (tag 11), element 1 is rotor iron (tag 4). -/
def gEx : Fin 2 → ℤ := fun m => if m = 0 then 11 else 4

/-- Example volume vector for concrete witnesses. -/
def vEx : Fin 2 → ℚ := fun _ => 1

/-- Example one-harmonic spectrum for concrete witnesses. -/
def JmEx : Fin 1 → Fin 2 → ℚ := fun _ m => if m = 0 then 3 else 5

/-- C1: after the magnet current correction, the area-weighted mean of
the corrected spectrum restricted to the magnet region (tag 11) is
exactly zero at every harmonic order, for every spectrum, whenever the
magnet region's total weighted area is positive. -/
theorem magnetCorrection_mean_zero {ns nn : ℕ} (Jm : Fin ns → Fin nn → ℚ)
    (v : Fin nn → ℚ) (g : Fin nn → ℤ)
    (hpos : 0 < vmag v (regionMask 11 g)) (k : Fin ns) :
    magnetMean (magnetCorrection Jm v g k) v g = 0 := by
  have hne : vmag v (regionMask 11 g) ≠ 0 := ne_of_gt hpos
  unfold magnetMean
  rw [div_eq_zero_iff]
  left
  have hexp : ∀ m : Fin nn,
      magnetCorrection Jm v g k m * (v m * regionMask 11 g m)
        = Jm k m * (v m * regionMask 11 g m)
          - Jo (Jm k) v (regionMask 11 g) * (v m * regionMask 11 g m) := by
    intro m
    unfold magnetCorrection
    rcases regionMask_zero_or_one 11 g m with h0 | h1
    · rw [h0]; ring
    · rw [h1]; ring
  calc
    ∑ m, magnetCorrection Jm v g k m * (v m * regionMask 11 g m)
        = ∑ m, (Jm k m * (v m * regionMask 11 g m)
            - Jo (Jm k) v (regionMask 11 g) * (v m * regionMask 11 g m)) := by
          exact Finset.sum_congr rfl (fun m _ => hexp m)
    _ = (∑ m, Jm k m * (v m * regionMask 11 g m))
          - Jo (Jm k) v (regionMask 11 g) * ∑ m, v m * regionMask 11 g m := by
          rw [Finset.sum_sub_distrib, Finset.mul_sum]
    _ = 0 := by
          rw [sum_row_eq_Jo_mul_vmag (Jm k) v g hne]
          unfold vmag
          ring

/-- C1 witness: the mean-zero property instantiated on a concrete
two-element geometry with one magnet element. -/
theorem magnetCorrection_mean_zero_witness :
    0 < vmag vEx (regionMask 11 gEx) ∧
      magnetMean (magnetCorrection JmEx vEx gEx 0) vEx gEx = 0 :=
  ⟨by norm_num [vmag, vEx, gEx, regionMask, Fin.sum_univ_two],
   magnetCorrection_mean_zero JmEx vEx gEx
     (by norm_num [vmag, vEx, gEx, regionMask, Fin.sum_univ_two]) 0⟩

/-- C6 amended: the correction step leaves the original spectrum
available unchanged (the in-place update hits only the `.copy()`), and
whenever the magnet region's total weighted area is nonzero — the
domain on which the program's float division is finite and exact
division matches it — every element outside the magnet region
(tag ≠ 11) keeps its original value in the corrected copy at every
harmonic order.  (With zero weighted area the division by `vmag = 0`
makes `Jo` non-finite and `NaN·0 = NaN` overwrites outside elements
too; see the counterexample below.) -/
theorem magnetCorrection_frame {ns nn : ℕ} (Jm : Fin ns → Fin nn → ℚ)
    (v : Fin nn → ℚ) (g : Fin nn → ℤ)
    (_hv : vmag v (regionMask 11 g) ≠ 0) :
    (magnetCorrectionRun Jm v g).1 = Jm ∧
      ∀ (k : Fin ns) (m : Fin nn), g m ≠ 11 →
        (magnetCorrectionRun Jm v g).2 k m = Jm k m := by
  refine ⟨rfl, fun k m hm => ?_⟩
  unfold magnetCorrectionRun magnetCorrection regionMask
  simp [hm]

/-- C6 witness: the guarded frame property instantiated on the concrete
two-element geometry (magnet weighted area 1 ≠ 0), at the non-magnet
element. -/
theorem magnetCorrection_frame_witness :
    vmag vEx (regionMask 11 gEx) ≠ 0 ∧ gEx 1 ≠ 11 ∧
      (magnetCorrectionRun JmEx vEx gEx).2 0 1 = JmEx 0 1 :=
  ⟨by norm_num [vmag, vEx, gEx, regionMask, Fin.sum_univ_two],
   by decide,
   (magnetCorrection_frame JmEx vEx gEx
     (by norm_num [vmag, vEx, gEx, regionMask, Fin.sum_univ_two])).2 0 1
     (by decide)⟩

/-! ### Region-mask partition (C9)

The loss script builds four masks from the same tag vector:
`g1 = (g == 4)` (rotor iron), `g2 = (g == 5)` (stator iron),
`g4 = (g == 2)` (coils), `g3 = (g == 11)` (magnets).  Elements with any
other tag (air, shaft, …) are selected by none of them. -/

/-- Sum of the four region masks of the loss script at one element. -/
def maskSum {nn : ℕ} (g : Fin nn → ℤ) (m : Fin nn) : ℚ :=
  regionMask 4 g m + regionMask 5 g m + regionMask 2 g m + regionMask 11 g m

/-- Example geometry containing an air element (tag 1): a valid FEMM
mesh always contains elements outside the four tagged regions. -/
def gAir : Fin 1 → ℤ := fun _ => 1

/-- C9 counterexample: on a geometry with an air element (tag 1,
outside the four recognized tags) the masks do not sum to 1 at that
element, so they do not partition the element set. -/
theorem region_masks_partition_counterexample :
    ¬ maskSum gAir 0 = 1 := by
  norm_num [maskSum, regionMask, gAir]

/-- C9 amended: at every element the four region masks (rotor 4,
stator 5, coils 2, magnets 11) sum to exactly 1 when the element's tag
is one of the four recognized tags, and to 0 otherwise; so they
partition the sub-set of elements carrying a recognized tag, but leave
elements with any other tag (e.g. air) uncounted. -/
theorem region_masks_partition {nn : ℕ} (g : Fin nn → ℤ) (m : Fin nn) :
    maskSum g m
      = if g m = 4 ∨ g m = 5 ∨ g m = 2 ∨ g m = 11 then 1 else 0 := by
  unfold maskSum regionMask
  split_ifs <;> simp_all

/-! ### Current-vector optimizer (`part_000`, section 01, lines 56–113)

```
max_torque = -np.inf
max_angle = None
for beta in BETA:
    ...
    torque = femm.mo_gapintegral('SlidingBand', 0)
    if torque > max_torque:
        max_torque = torque
        max_angle = beta
torque_max_angles[current] = max_angle
```

The per-current inner loop is a fold over the ascending candidate-angle
list with a running `(max_torque, max_angle)` pair.  The torque returned
by the external solver at each angle is abstracted as a function
`tq : ℚ → ℚ` (the claim assumes finite torque values).  `none` models
the initial `(-np.inf, None)` state: any finite torque beats `-inf`, so
the first candidate is always adopted. -/

/-- Embedding of one iteration of the optimizer loop body: adopt `beta`
when its torque strictly exceeds the running maximum (`torque >
max_torque` in the source), otherwise keep the running pair. -/
def scan_step (tq : ℚ → ℚ) (st : Option (ℚ × ℚ)) (beta : ℚ) : Option (ℚ × ℚ) :=
  match st with
  | none => some (tq beta, beta)
  | some (mt, ma) => if mt < tq beta then some (tq beta, beta) else some (mt, ma)

/-- Embedding of the optimizer's scan over the candidate angle list for
one current magnitude, producing the final `(max_torque, max_angle)`
pair (`none` when the candidate list is empty, matching `max_angle =
None`). -/
def torque_max_angles (tq : ℚ → ℚ) (betas : List ℚ) : Option (ℚ × ℚ) :=
  betas.foldl (scan_step tq) none

theorem foldl_scan_step_some (tq : ℚ → ℚ) (xs : List ℚ) :
    ∀ t0 a0 : ℚ,
      (List.foldl (scan_step tq) (some (t0, a0)) xs = some (t0, a0)
        ∧ ∀ b ∈ xs, tq b ≤ t0)
      ∨ ∃ k : ℕ, ∃ hk : k < xs.length,
          List.foldl (scan_step tq) (some (t0, a0)) xs
              = some (tq (xs.get ⟨k, hk⟩), xs.get ⟨k, hk⟩)
            ∧ t0 < tq (xs.get ⟨k, hk⟩)
            ∧ (∀ j : ℕ, ∀ hj : j < xs.length,
                tq (xs.get ⟨j, hj⟩) ≤ tq (xs.get ⟨k, hk⟩))
            ∧ (∀ j : ℕ, ∀ hj : j < xs.length, j < k →
                tq (xs.get ⟨j, hj⟩) < tq (xs.get ⟨k, hk⟩)) := by
  induction xs with
  | nil =>
      intro t0 a0
      left
      exact ⟨rfl, by simp⟩
  | cons x xs ih =>
      intro t0 a0
      by_cases hx : t0 < tq x
      · have hstep : List.foldl (scan_step tq) (some (t0, a0)) (x :: xs)
            = List.foldl (scan_step tq) (some (tq x, x)) xs := by
          simp [scan_step, hx]
        rcases ih (tq x) x with ⟨heq, hle⟩ | ⟨k, hk, heq, hgt, hmax, hfirst⟩
        · right
          refine ⟨0, Nat.succ_pos _, ?_, hx, ?_, ?_⟩
          · rw [hstep, heq]; rfl
          · intro j hj
            cases j with
            | zero => exact le_refl _
            | succ j' => exact hle _ (List.get_mem xs _ _)
          · intro j hj hj0
            exact absurd hj0 (Nat.not_lt_zero j)
        · right
          refine ⟨k + 1, Nat.succ_lt_succ hk, ?_, lt_trans hx hgt, ?_, ?_⟩
          · rw [hstep, heq]; rfl
          · intro j hj
            cases j with
            | zero => exact le_of_lt hgt
            | succ j' => exact hmax j' (Nat.lt_of_succ_lt_succ hj)
          · intro j hj hjk
            cases j with
            | zero => exact hgt
            | succ j' =>
                exact hfirst j' (Nat.lt_of_succ_lt_succ hj)
                  (Nat.lt_of_succ_lt_succ hjk)
      · have hx' : tq x ≤ t0 := not_lt.mp hx
        have hstep : List.foldl (scan_step tq) (some (t0, a0)) (x :: xs)
            = List.foldl (scan_step tq) (some (t0, a0)) xs := by
          simp [scan_step, hx]
        rcases ih t0 a0 with ⟨heq, hle⟩ | ⟨k, hk, heq, hgt, hmax, hfirst⟩
        · left
          refine ⟨by rw [hstep, heq], ?_⟩
          intro b hb
          rcases List.mem_cons.mp hb with rfl | hb'
          · exact hx'
          · exact hle b hb'
        · right
          refine ⟨k + 1, Nat.succ_lt_succ hk, ?_, hgt, ?_, ?_⟩
          · rw [hstep, heq]; rfl
          · intro j hj
            cases j with
            | zero => exact le_of_lt (lt_of_le_of_lt hx' hgt)
            | succ j' => exact hmax j' (Nat.lt_of_succ_lt_succ hj)
          · intro j hj hjk
            cases j with
            | zero => exact lt_of_le_of_lt hx' hgt
            | succ j' =>
                exact hfirst j' (Nat.lt_of_succ_lt_succ hj)
                  (Nat.lt_of_succ_lt_succ hjk)

/-- C2: on any non-empty candidate angle list with (finite) torque
values, the optimizer returns some pair whose angle is an element of the
list, whose stored torque is the torque at that angle, which is ≥ the
torque at every other candidate, and which is the first maximizer in
list (ascending angle) order: every strictly earlier candidate has
strictly smaller torque. -/
theorem torque_max_angles_spec (tq : ℚ → ℚ) (betas : List ℚ)
    (hne : betas ≠ []) :
    ∃ k : ℕ, ∃ hk : k < betas.length,
      torque_max_angles tq betas
          = some (tq (betas.get ⟨k, hk⟩), betas.get ⟨k, hk⟩)
        ∧ betas.get ⟨k, hk⟩ ∈ betas
        ∧ (∀ j : ℕ, ∀ hj : j < betas.length,
            tq (betas.get ⟨j, hj⟩) ≤ tq (betas.get ⟨k, hk⟩))
        ∧ (∀ j : ℕ, ∀ hj : j < betas.length, j < k →
            tq (betas.get ⟨j, hj⟩) < tq (betas.get ⟨k, hk⟩)) := by
  cases betas with
  | nil => exact absurd rfl hne
  | cons x xs =>
      have h0 : torque_max_angles tq (x :: xs)
          = List.foldl (scan_step tq) (some (tq x, x)) xs := rfl
      rcases foldl_scan_step_some tq xs (tq x) x
        with ⟨heq, hle⟩ | ⟨k, hk, heq, hgt, hmax, hfirst⟩
      · refine ⟨0, Nat.succ_pos _, ?_, List.get_mem _ _ _, ?_, ?_⟩
        · rw [h0, heq]; rfl
        · intro j hj
          cases j with
          | zero => exact le_refl _
          | succ j' => exact hle _ (List.get_mem xs _ _)
        · intro j hj hj0
          exact absurd hj0 (Nat.not_lt_zero j)
      · refine ⟨k + 1, Nat.succ_lt_succ hk, ?_, List.get_mem _ _ _, ?_, ?_⟩
        · rw [h0, heq]; rfl
        · intro j hj
          cases j with
          | zero => exact le_of_lt hgt
          | succ j' => exact hmax j' (Nat.lt_of_succ_lt_succ hj)
        · intro j hj hjk
          cases j with
          | zero => exact hgt
          | succ j' =>
              exact hfirst j' (Nat.lt_of_succ_lt_succ hj)
                (Nat.lt_of_succ_lt_succ hjk)

/-- Example torque curve for the concrete optimizer witness: angles 45
and 90 tie at the maximum torque 7, angle 0 has torque 3. -/
def tqEx : ℚ → ℚ := fun beta => if beta = 0 then 3 else 7

/-- C2 witness: the optimizer specification instantiated on the
concrete candidate list `[0, 45, 90]` with the tie-producing torque
curve `tqEx`. -/
theorem torque_max_angles_spec_witness :
    ([(0 : ℚ), 45, 90] ≠ ([] : List ℚ)) ∧
      ∃ k : ℕ, ∃ hk : k < [(0 : ℚ), 45, 90].length,
        torque_max_angles tqEx [(0 : ℚ), 45, 90]
            = some (tqEx ([(0 : ℚ), 45, 90].get ⟨k, hk⟩),
                [(0 : ℚ), 45, 90].get ⟨k, hk⟩)
          ∧ [(0 : ℚ), 45, 90].get ⟨k, hk⟩ ∈ [(0 : ℚ), 45, 90]
          ∧ (∀ j : ℕ, ∀ hj : j < [(0 : ℚ), 45, 90].length,
              tqEx ([(0 : ℚ), 45, 90].get ⟨j, hj⟩)
                ≤ tqEx ([(0 : ℚ), 45, 90].get ⟨k, hk⟩))
          ∧ (∀ j : ℕ, ∀ hj : j < [(0 : ℚ), 45, 90].length, j < k →
              tqEx ([(0 : ℚ), 45, 90].get ⟨j, hj⟩)
                < tqEx ([(0 : ℚ), 45, 90].get ⟨k, hk⟩)) :=
  ⟨by simp, torque_max_angles_spec tqEx [(0 : ℚ), 45, 90] (by simp)⟩

/-! ### Harmonic decomposer (`part_000`, section 03, lines 156–180)

```
bxfft = np.abs(np.fft.fft(b_real[i], ns, axis=0)) * 2 / ns
byfft = np.abs(np.fft.fft(b_imag[i], ns, axis=0)) * 2 / ns
bsq[i]     = bxfft**2.045 + byfft**2.045
bsq_mod[i] = np.sqrt(bsq[i])
bsq_ex[i]  = bxfft**1.5 + byfft**1.5
bsq_btt[i] = bxfft**4 + byfft**4
Jm[i] = np.fft.fft(A_flux[i], ns, axis=0) * 2 / ns
```

with `Jm = np.zeros((N, ns, nn))` declared WITHOUT `dtype=complex`
(line 160), so the complex DFT row is coerced into a real array: numpy
keeps only the real part of each coefficient. -/

/-- Forward discrete Fourier transform of a length-`ns` complex signal,
`X k = ∑ j, x j · exp(−2πi·jk/ns)`, the transform `np.fft.fft`
computes. -/
noncomputable def dft (ns : ℕ) (x : Fin ns → ℂ) (k : Fin ns) : ℂ :=
  ∑ j, x j * Complex.exp (-(2 * (Real.pi : ℂ) * Complex.I
    * ((j : ℕ) : ℂ) * ((k : ℕ) : ℂ)) / (ns : ℂ))

/-- Embedding of `np.abs(np.fft.fft(s, ns, axis=0)) * 2 / ns` applied to
one real signal component (used for both `bxfft` and `byfft`). -/
noncomputable def bfft {ns nn : ℕ} (s : Fin ns → Fin nn → ℝ) :
    Fin ns → Fin nn → ℝ :=
  fun k m => Complex.abs (dft ns (fun j => ((s j m : ℝ) : ℂ)) k) * 2 / ns

/-- The exact value of `np.fft.fft(A_flux[i], ns, axis=0) * 2 / ns`:
the full complex DFT coefficients of the vector potential, scaled. -/
noncomputable def Jm_fft {ns nn : ℕ} (A : Fin ns → Fin nn → ℝ) :
    Fin ns → Fin nn → ℂ :=
  fun k m => dft ns (fun j => ((A j m : ℝ) : ℂ)) k * 2 / ns

/-- Embedding of the assignment `Jm[i] = np.fft.fft(A_flux[i], ns,
axis=0) * 2 / ns` into the real-dtype array `Jm = np.zeros((N, ns,
nn))`: numpy discards the imaginary part and stores only the real
part of each coefficient. -/
noncomputable def Jm_stored {ns nn : ℕ} (A : Fin ns → Fin nn → ℝ) :
    Fin ns → Fin nn → ℝ :=
  fun k m => (Jm_fft A k m).re

/-- Concrete vector-potential history for the C3 evaluation: a single
element sampled over 4 rotor-angle steps, with an impulse at step 1. -/
def Aex : Fin 4 → Fin 1 → ℝ := fun j _ => if (j : ℕ) = 1 then 1 else 0

theorem Jm_fft_Aex : Jm_fft Aex 1 0 = -(Complex.I / 2) := by
  unfold Jm_fft dft Aex
  rw [Fin.sum_univ_four]
  norm_num [show (((0 : Fin 4)) : ℕ) = 0 from rfl, show (((1 : Fin 4)) : ℕ) = 1 from rfl,
    show (((2 : Fin 4)) : ℕ) = 2 from rfl, show (((3 : Fin 4)) : ℕ) = 3 from rfl]
  have harg : -(2 * (Real.pi : ℂ) * Complex.I) / 4
      = ((-(Real.pi / 2) : ℝ) : ℂ) * Complex.I := by
    push_cast
    ring
  rw [harg, Complex.exp_mul_I, ← Complex.ofReal_cos, ← Complex.ofReal_sin,
    Real.cos_neg, Real.sin_neg, Real.cos_pi_div_two, Real.sin_pi_div_two]
  push_cast
  ring

/-- C3: the code stores the scaled vector-potential DFT into a real
array, so the imaginary part is lost: at the concrete input `Aex` the
exact coefficient at harmonic 1 is `−i/2`, whose imaginary part is
nonzero, while the stored value is its real part `0`. -/
theorem Jm_stored_drops_imag :
    Jm_fft Aex 1 0 = -(Complex.I / 2) ∧ (Jm_fft Aex 1 0).im ≠ 0 ∧
      Jm_stored Aex 1 0 = 0 := by
  refine ⟨Jm_fft_Aex, ?_, ?_⟩
  · rw [Jm_fft_Aex]
    norm_num
  · unfold Jm_stored
    rw [Jm_fft_Aex]
    norm_num

/-! ### Derived harmonic loss terms (C8) -/

/-- Embedding of `bsq[i] = bxfft**2.045 + byfft**2.045` (general /
Bertotti iron-loss term). -/
noncomputable def bsq {ns nn : ℕ} (br bi : Fin ns → Fin nn → ℝ) :
    Fin ns → Fin nn → ℝ :=
  fun k m => bfft br k m ^ (2.045 : ℝ) + bfft bi k m ^ (2.045 : ℝ)

/-- Embedding of `bsq_mod[i] = np.sqrt(bsq[i])` (resultant flux
magnitude). -/
noncomputable def bsq_mod {ns nn : ℕ} (br bi : Fin ns → Fin nn → ℝ) :
    Fin ns → Fin nn → ℝ :=
  fun k m => Real.sqrt (bsq br bi k m)

/-- Embedding of `bsq_ex[i] = bxfft**1.5 + byfft**1.5` (excess-loss
term). -/
noncomputable def bsq_ex {ns nn : ℕ} (br bi : Fin ns → Fin nn → ℝ) :
    Fin ns → Fin nn → ℝ :=
  fun k m => bfft br k m ^ (1.5 : ℝ) + bfft bi k m ^ (1.5 : ℝ)

/-- Embedding of `bsq_btt[i] = bxfft**4 + byfft**4` (classical eddy
term). -/
noncomputable def bsq_btt {ns nn : ℕ} (br bi : Fin ns → Fin nn → ℝ) :
    Fin ns → Fin nn → ℝ :=
  fun k m => bfft br k m ^ ((4 : ℕ) : ℝ) + bfft bi k m ^ ((4 : ℕ) : ℝ)

theorem bfft_nonneg {ns nn : ℕ} (s : Fin ns → Fin nn → ℝ)
    (k : Fin ns) (m : Fin nn) : 0 ≤ bfft s k m := by
  unfold bfft
  positivity

/-- C8: at every current level, harmonic order and element the four
derived quantities equal exactly the claimed formulas in the DFT
magnitudes `bx = bfft br`, `by = bfft bi`: the general term is
`bx^2.045 + by^2.045`, the resultant magnitude is its square root
(squaring it recovers the general term, which is non-negative), the
excess term is `bx^1.5 + by^1.5`, and the eddy term is `bx^4 + by^4`
(a natural fourth power). -/
theorem harmonic_loss_terms_spec {ns nn : ℕ} (br bi : Fin ns → Fin nn → ℝ)
    (k : Fin ns) (m : Fin nn) :
    bsq br bi k m = bfft br k m ^ (2.045 : ℝ) + bfft bi k m ^ (2.045 : ℝ)
      ∧ bsq_mod br bi k m = Real.sqrt (bsq br bi k m)
      ∧ bsq_mod br bi k m ^ 2 = bsq br bi k m
      ∧ bsq_ex br bi k m = bfft br k m ^ (1.5 : ℝ) + bfft bi k m ^ (1.5 : ℝ)
      ∧ bsq_btt br bi k m = bfft br k m ^ (4 : ℕ) + bfft bi k m ^ (4 : ℕ) := by
  have hnn : 0 ≤ bsq br bi k m := by
    unfold bsq
    have h1 := Real.rpow_nonneg (bfft_nonneg br k m) (2.045 : ℝ)
    have h2 := Real.rpow_nonneg (bfft_nonneg bi k m) (2.045 : ℝ)
    linarith
  refine ⟨rfl, rfl, ?_, rfl, ?_⟩
  · unfold bsq_mod
    exact Real.sq_sqrt hnn
  · unfold bsq_btt
    rw [Real.rpow_natCast, Real.rpow_natCast]

/-! ### dq→abc transforms: optimizer vs. field-sweep driver (C5)

Optimizer (`part_000`, section 01, lines 65–83):
```
id_val = -current * np.sin(np.radians(beta))
iq_val =  current * np.cos(np.radians(beta))
theta_e = (N_rotor_poles / 2) * np.radians(theta_r)      # N_rotor_poles = 8
Id = [sin(theta_e), sin(theta_e - 2π/3), sin(theta_e - 4π/3)]
Iq = [cos(theta_e), cos(theta_e - 2π/3), cos(theta_e - 4π/3)]
I_abc = id_val * Id + iq_val * Iq
```

Field-sweep driver (`Compute_Bx-Az-Te…py`, lines 61–76):
```
ids = -iss[i] * np.sin(np.radians(90 + Beta))
iqs =  iss[i] * np.cos(np.radians(90 + Beta))
theta_e = (RotorMagnets / 2) * np.radians(theta_r)        # RotorMagnets = 16
Id = [np.sin(theta_e - k * 2π/3) for k in range(3)]
Iq = [np.cos(theta_e - k * 2π/3) for k in range(3)]
Itot = ids * Id + iqs * Iq
```
Note the driver evaluates the dq decomposition at `90 + Beta`, not at
`Beta`. -/

/-- Embedding of `np.radians`. -/
noncomputable def radians (d : ℝ) : ℝ := d * Real.pi / 180

/-- Optimizer `id_val = -current * np.sin(np.radians(beta))`. -/
noncomputable def id_val (I beta : ℝ) : ℝ := -I * Real.sin (radians beta)

/-- Optimizer `iq_val = current * np.cos(np.radians(beta))`. -/
noncomputable def iq_val (I beta : ℝ) : ℝ := I * Real.cos (radians beta)

/-- Optimizer electrical angle, `(N_rotor_poles / 2) * np.radians(theta_r)`
with `N_rotor_poles = 8` rotor poles: pole pairs × mechanical radians. -/
noncomputable def theta_e_opt (theta_r : ℝ) : ℝ := (8 / 2) * radians theta_r

/-- Optimizer vector `Id` (entries written out in the source). -/
noncomputable def Id_vec (th : ℝ) : Fin 3 → ℝ :=
  fun k =>
    if k = 0 then Real.sin th
    else if k = 1 then Real.sin (th - 2 * Real.pi / 3)
    else Real.sin (th - 4 * Real.pi / 3)

/-- Optimizer vector `Iq` (entries written out in the source). -/
noncomputable def Iq_vec (th : ℝ) : Fin 3 → ℝ :=
  fun k =>
    if k = 0 then Real.cos th
    else if k = 1 then Real.cos (th - 2 * Real.pi / 3)
    else Real.cos (th - 4 * Real.pi / 3)

/-- Optimizer `I_abc = id_val * Id + iq_val * Iq`. -/
noncomputable def I_abc (I beta theta_r : ℝ) : Fin 3 → ℝ :=
  fun k => id_val I beta * Id_vec (theta_e_opt theta_r) k
    + iq_val I beta * Iq_vec (theta_e_opt theta_r) k

/-- Driver `ids = -iss[i] * np.sin(np.radians(90 + Beta))`. -/
noncomputable def ids (I beta : ℝ) : ℝ := -I * Real.sin (radians (90 + beta))

/-- Driver `iqs = iss[i] * np.cos(np.radians(90 + Beta))`. -/
noncomputable def iqs (I beta : ℝ) : ℝ := I * Real.cos (radians (90 + beta))

/-- Driver electrical angle, `(RotorMagnets / 2) * np.radians(theta_r)`
with `RotorMagnets = 16`. -/
noncomputable def theta_e_drv (theta_r : ℝ) : ℝ := (16 / 2) * radians theta_r

/-- Driver `Itot = ids * Id + iqs * Iq` with the comprehension entries
`sin(theta_e - k·2π/3)`, `cos(theta_e - k·2π/3)`. -/
noncomputable def Itot (I beta theta_r : ℝ) : Fin 3 → ℝ :=
  fun k => ids I beta * Real.sin (theta_e_drv theta_r - (k : ℕ) * (2 * Real.pi / 3))
    + iqs I beta * Real.cos (theta_e_drv theta_r - (k : ℕ) * (2 * Real.pi / 3))

theorem radians_ninety_add (beta : ℝ) :
    radians (90 + beta) = radians beta + Real.pi / 2 := by
  unfold radians
  ring

/-- C5 counterexample: at current 1 and angle β = 0 the driver's direct
component is `-sin(π/2) = -1`, not the claimed `-1·sin(0) = 0`; the
driver does not decompose as `id = -I·sin(β)`. -/
theorem driver_dq_decomposition_counterexample :
    ¬ ids 1 0 = -1 * Real.sin (radians 0) := by
  have hl : ids 1 0 = -1 := by
    unfold ids
    rw [show ((90 : ℝ) + 0) = (90 : ℝ) by norm_num]
    unfold radians
    rw [show (90 : ℝ) * Real.pi / 180 = Real.pi / 2 by ring, Real.sin_pi_div_two]
    norm_num
  have hr : -1 * Real.sin (radians 0) = 0 := by
    unfold radians
    rw [show (0 : ℝ) * Real.pi / 180 = 0 by ring, Real.sin_zero]
    norm_num
  intro h
  rw [hl, hr] at h
  norm_num at h

/-- C5 amended: the optimizer decomposes `id = -I·sin(β)`,
`iq = I·cos(β)`, but the field-sweep driver evaluates the same formulas
at `90° + β`, which equals `id = -I·cos(β)`, `iq = -I·sin(β)`; both
scripts then produce phase currents
`id·sin(θe − 2πk/3) + iq·cos(θe − 2πk/3)` for k ∈ {0,1,2}, with
electrical angle θe = (poles/2)·(mechanical angle in radians). -/
theorem phase_current_formulas (I beta theta_r : ℝ) (k : Fin 3) :
    I_abc I beta theta_r k
        = id_val I beta
            * Real.sin (theta_e_opt theta_r - (k : ℕ) * (2 * Real.pi / 3))
          + iq_val I beta
            * Real.cos (theta_e_opt theta_r - (k : ℕ) * (2 * Real.pi / 3))
      ∧ Itot I beta theta_r k
        = ids I beta
            * Real.sin (theta_e_drv theta_r - (k : ℕ) * (2 * Real.pi / 3))
          + iqs I beta
            * Real.cos (theta_e_drv theta_r - (k : ℕ) * (2 * Real.pi / 3))
      ∧ ids I beta = -I * Real.cos (radians beta)
      ∧ iqs I beta = -I * Real.sin (radians beta) := by
  refine ⟨?_, rfl, ?_, ?_⟩
  · fin_cases k <;>
      simp only [I_abc, Id_vec, Iq_vec, Fin.ext_iff] <;>
      norm_num <;>
      ring_nf
  · unfold ids
    rw [radians_ninety_add, Real.sin_add_pi_div_two]
  · unfold iqs
    rw [radians_ninety_add, Real.cos_add_pi_div_two]
    ring

/-! ### Division-by-zero behaviour (C4, C7)

The scripts run on IEEE-754 doubles, where `0.0 / 0.0` silently yields
NaN and arithmetic on non-finite values propagates them; no Python
exception is raised and no check exists in the source.  To state this
in exact arithmetic, `FQ` models a double as `some q` (finite, of exact
value `q`) or `none` (non-finite: NaN or ±Inf).  The propagation rules
are sound abstractions of IEEE arithmetic for the operations as the
scripts use them: every denominator the scripts form is finite, and a
non-finite operand always yields a non-finite result in the operations
below (`Inf·0 = NaN`, `finite − NaN = NaN`, …). -/

/-- A double: `some q` finite, `none` non-finite (NaN or ±Inf). -/
abbrev FQ := Option ℚ

/-- Addition with non-finite propagation. -/
def fadd : FQ → FQ → FQ
  | some a, some b => some (a + b)
  | _, _ => none

/-- Subtraction with non-finite propagation. -/
def fsub : FQ → FQ → FQ
  | some a, some b => some (a - b)
  | _, _ => none

/-- Multiplication with non-finite propagation (`Inf·0 = NaN` and
`NaN·0 = NaN`, so `none · some 0 = none`). -/
def fmul : FQ → FQ → FQ
  | some a, some b => some (a * b)
  | _, _ => none

/-- Division: a zero denominator yields a non-finite value (`0/0 =
NaN`, `x/0 = ±Inf`); the scripts never divide by a non-finite value. -/
def fdiv : FQ → FQ → FQ
  | some a, some b => if b = 0 then none else some (a / b)
  | _, _ => none

/-- `np.dot` of two vectors: sum of elementwise products. -/
def fdot (xs ys : List FQ) : FQ :=
  (List.zipWith fmul xs ys).foldl fadd (some 0)

/-- `g3 = (g == 11).astype(float)` over a tag list. -/
def g3F (g : List ℤ) : List FQ :=
  g.map (fun t => some (if t = 11 then (1 : ℚ) else 0))

/-- `vmag = v @ g3`. -/
def vmagF (v : List FQ) (g : List ℤ) : FQ := fdot v (g3F g)

/-- `Jo = np.dot(Jm_vec[i], v * g3) / vmag` for one harmonic row. -/
def JoF (row v : List FQ) (g : List ℤ) : FQ :=
  fdiv (fdot row (List.zipWith fmul v (g3F g))) (vmagF v g)

/-- `Jm_vec[i] -= np.outer(Jo, g3)`: each row becomes
`row − Jo·g3` elementwise. -/
def magnetCorrectionF (Jm : List (List FQ)) (v : List FQ) (g : List ℤ) :
    List (List FQ) :=
  Jm.map (fun row =>
    List.zipWith (fun x gm => fsub x (fmul (JoF row v g) gm)) row (g3F g))

/-- C4: on a geometry whose magnet region has zero total area (here: a
single element tagged 4, so no element carries tag 11), the correction
does not fail with a configuration error: the script divides by
`vmag = 0`, `Jo` becomes NaN, and `np.outer(NaN, g3)` spreads NaN over
the whole corrected spectrum — the code returns normally with
non-finite values. -/
theorem magnetCorrectionF_zero_area_nan :
    vmagF [some 1] [4] = some 0 ∧
      JoF [some 2] [some 1] [4] = none ∧
      magnetCorrectionF [[some 2]] [some 1] [4] = [[none]] := by
  refine ⟨?_, ?_, ?_⟩ <;>
    simp [magnetCorrectionF, JoF, vmagF, g3F, fdot, fdiv, fmul, fadd, fsub]

/-- C6 counterexample: on a geometry whose magnet region has zero
weighted area (a single element tagged 5, outside the magnet region;
`vmag = 0`), the correction changes the outside element: `Jo = 0/0` is
non-finite and `np.outer(Jo, g3)` subtracts `NaN·0 = NaN` from it, so
the element's value does not survive and the unconditional frame claim
fails on the code. -/
theorem magnetCorrection_frame_counterexample :
    ((5 : ℤ) ≠ 11) ∧
      magnetCorrectionF [[some 3]] [some 2] [(5 : ℤ)] = [[none]] ∧
      magnetCorrectionF [[some 3]] [some 2] [(5 : ℤ)] ≠ [[some 3]] := by
  refine ⟨by decide, ?_, ?_⟩ <;>
    simp [magnetCorrectionF, JoF, vmagF, g3F, fdot, fdiv, fmul, fadd, fsub]

/-- Embedding of `Eff[i, j] = 100 * Pout[i, j] / Pin[i, j]` (line 135)
over the non-finite-tracking scalars: the division is unconditional. -/
def EffF (pout pin : FQ) : FQ := fdiv (fmul (some 100) pout) pin

/-- C7: the efficiency assignment neither flags nor clamps degenerate
inputs: at zero input power (zero mean torque and zero total loss give
`Pout = Pin = 0`) it silently produces NaN, and at negative input power
it silently returns an out-of-range value (−200 here), in both cases a
plain value rather than an error or flag. -/
theorem EffF_degenerate_eval :
    EffF (some 0) (some 0) = none ∧ EffF (some 10) (some (-5)) = some (-200) := by
  constructor <;> simp [EffF, fdiv, fmul] <;> norm_num

/-! ### Power, torque and efficiency block
(`Loss_Calculation…py`, lines 98 and 129–135)

```
Torque_value = np.mean(Tq[i][:])
omega = np.pi * thisSpeed / 30
Pout[i, j] = Torque_value * omega
Pin[i, j] = Pout[i, j] + total_loss
Tout[i, j] = Pin[i, j] / omega
Tin[i, j] = (Pin[i, j] - total_loss) / omega
Eff[i, j] = 100 * Pout[i, j] / Pin[i, j]
```
-/

/-- `Torque_value = np.mean(Tq[i][:])`: mean simulated torque over the
angle sweep of one current level. -/
noncomputable def Torque_value (Tq : List ℝ) : ℝ := Tq.sum / Tq.length

/-- `omega = np.pi * thisSpeed / 30`. -/
noncomputable def omega (speed : ℝ) : ℝ := Real.pi * speed / 30

/-- `Pout[i, j] = Torque_value * omega`. -/
noncomputable def Pout (Tq : List ℝ) (speed : ℝ) : ℝ :=
  Torque_value Tq * omega speed

/-- `Pin[i, j] = Pout[i, j] + total_loss`. -/
noncomputable def Pin (Tq : List ℝ) (loss speed : ℝ) : ℝ :=
  Pout Tq speed + loss

/-- `Tout[i, j] = Pin[i, j] / omega`. -/
noncomputable def Tout (Tq : List ℝ) (loss speed : ℝ) : ℝ :=
  Pin Tq loss speed / omega speed

/-- `Tin[i, j] = (Pin[i, j] - total_loss) / omega`. -/
noncomputable def Tin (Tq : List ℝ) (loss speed : ℝ) : ℝ :=
  (Pin Tq loss speed - loss) / omega speed

/-- C10: at positive speed the quantity reported as input torque `Tin`
equals the mean simulated torque `Pout/ω`, the quantity reported as
output torque `Tout` equals `Pin/ω = Tin + total_loss/ω`, and whenever
the total loss is non-negative the reported output torque is at least
the reported input torque. -/
theorem Tin_Tout_swap_spec (Tq : List ℝ) (loss speed : ℝ)
    (hspeed : 0 < speed) (hloss : 0 ≤ loss) :
    Tin Tq loss speed = Torque_value Tq
      ∧ Tin Tq loss speed = Pout Tq speed / omega speed
      ∧ Tout Tq loss speed = Pin Tq loss speed / omega speed
      ∧ Tout Tq loss speed = Tin Tq loss speed + loss / omega speed
      ∧ Tin Tq loss speed ≤ Tout Tq loss speed := by
  have homega : 0 < omega speed := by
    unfold omega
    exact div_pos (mul_pos Real.pi_pos hspeed) (by norm_num)
  have hne : omega speed ≠ 0 := ne_of_gt homega
  have h2 : Tin Tq loss speed = Pout Tq speed / omega speed := by
    unfold Tin Pin
    rw [add_sub_cancel_right]
  have h1 : Tin Tq loss speed = Torque_value Tq := by
    rw [h2]
    unfold Pout
    exact mul_div_cancel_right₀ _ hne
  have h4 : Tout Tq loss speed = Tin Tq loss speed + loss / omega speed := by
    unfold Tout Tin
    rw [div_add_div_same, sub_add_cancel]
  refine ⟨h1, h2, rfl, h4, ?_⟩
  rw [h4]
  have : 0 ≤ loss / omega speed := div_nonneg hloss (le_of_lt homega)
  linarith

/-- C10 witness: the torque-label relations instantiated at a concrete
sweep (torques 10 and 20 N·m, loss 5 W, speed 600 rpm). -/
theorem Tin_Tout_swap_witness :
    0 < (600 : ℝ) ∧ 0 ≤ (5 : ℝ) ∧
      Tin [10, 20] 5 600 = Torque_value [10, 20] ∧
      Tin [10, 20] 5 600 ≤ Tout [10, 20] 5 600 :=
  ⟨by norm_num, by norm_num,
    (Tin_Tout_swap_spec [10, 20] 5 600 (by norm_num) (by norm_num)).1,
    (Tin_Tout_swap_spec [10, 20] 5 600 (by norm_num) (by norm_num)).2.2.2.2⟩

end ElectricMachines
